import Mathlib

/-
  Verification of the RubriCheck grading pipeline specification against the
  repository sources.

  The frontend components (HighlightedEssay.tsx, Results.tsx,
  StudentResults.tsx) are embedded directly from their TypeScript sources.
  The backend pipeline modules (essay_preprocessor.py, grading_engine.py,
  rubric_parser_prompt.py, rubriCheck_pipeline.py) are only declared in the
  repository documentation (README_pipeline.md, grading_engine_features_guide.md);
  their behaviour is modelled from the specification, as flagged on each
  such definition.

  Layout: all definitions first, then the theorems settling the claims.
-/

namespace RubriCheck

/-! ### Frontend score display (Results.tsx / StudentResults.tsx) -/

/-- From StudentResults.tsx (overall_score) and Results.tsx (overall display):
a numeric overall score n is normalized for display by showing n unchanged
when n is greater than 1 and multiplying it by 100 otherwise; a missing
numeric score becomes 0. -/
def normalizeOverallScore : Option ℚ → ℚ
  | none => 0
  | some n => if n > 1 then n else n * 100

/-! ### HighlightedEssay.tsx: highlightTextInParagraph -/

/-- A highlight interval over a paragraph, as built by highlightTextInParagraph
(start inclusive, stop exclusive; the source field named end is a Lean keyword,
so it is called stop here). -/
structure Highlight where
  start : Nat
  stop : Nat

/-- Character-wise model of JS String.prototype.toLowerCase. -/
def lowerStr (s : List Char) : List Char := s.map Char.toLower

/-- JS whitespace characters relevant to String.prototype.trim. -/
def isJsWhitespace (c : Char) : Bool :=
  c = ' ' || c = '\t' || c = '\n' || c = '\r'

/-- The filter applied in getAllEvidenceSpans of HighlightedEssay.tsx: an
evidence span is kept only when its text has a nonempty trim, which holds
exactly when it contains a non-whitespace character. -/
def keepSpan (s : List Char) : Bool := s.any (fun c => !(isJsWhitespace c))

/-- paragraphText.indexOf(searchText, i) matches at position i exactly when
searchText starts the paragraph text dropped at i. -/
def matchAt (pat txt : List Char) (i : Nat) : Bool := pat.isPrefixOf (txt.drop i)

/-- All match positions found by the indexOf loop of highlightTextInParagraph:
searchIndex advances one past each hit, so every occurrence is visited in
increasing position order. -/
def occurrences (pat txt : List Char) : List Nat :=
  (List.range (txt.length + 1)).filter (matchAt pat txt)

/-- The overlap test of highlightTextInParagraph: a candidate match at index i
of length len is discarded when it starts inside an existing highlight or ends
inside one. -/
def overlapsExisting (i len : Nat) (e : Highlight) : Bool :=
  (decide (e.start ≤ i) && decide (i < e.stop)) ||
  (decide (e.start < i + len) && decide (i + len ≤ e.stop))

/-- The inner indexOf loop of highlightTextInParagraph: each occurrence of the
span text becomes a highlight unless the overlap test fires against an already
recorded one. -/
def addSpanHighlights (len : Nat) : List Nat → List Highlight → List Highlight
  | [], hs => hs
  | i :: rest, hs =>
    addSpanHighlights len rest
      (if hs.any (overlapsExisting i len) then hs else hs ++ [⟨i, i + len⟩])

/-- The outer forEach of highlightTextInParagraph over relevantSpans (already
sorted longest first), accumulating highlights. -/
def findHighlights (para : List Char) : List (List Char) → List Highlight → List Highlight
  | [], hs => hs
  | s :: rest, hs =>
    findHighlights para rest
      (addSpanHighlights s.length (occurrences (lowerStr s) (lowerStr para)) hs)

/-- JS String.prototype.slice with explicit bounds. -/
def jsSlice (s : List Char) (a b : Nat) : List Char := (s.drop a).take (b - a)

/-- The build loop of highlightTextInParagraph: for each highlight in ascending
start order, push the unhighlighted slice before it (when nonempty) and then
the highlighted slice; finally push the remaining tail. -/
def renderFrom (para : List Char) : Nat → List Highlight → List Char
  | last, [] => para.drop last
  | last, h :: rest =>
    (if last < h.start then jsSlice para last h.start else []) ++
      (jsSlice para h.start h.stop ++ renderFrom para h.stop rest)

/-- Sort relation of relevantSpans.sort: longest span text first. -/
def spanLenGE (a b : List Char) : Prop := b.length ≤ a.length

instance : DecidableRel spanLenGE :=
  fun a b => inferInstanceAs (Decidable (b.length ≤ a.length))

instance : IsTotal (List Char) spanLenGE :=
  ⟨fun a b => Nat.le_total b.length a.length⟩

instance : IsTrans (List Char) spanLenGE :=
  ⟨fun _ _ _ hab hbc => Nat.le_trans hbc hab⟩

/-- Sort relation of highlights.sort: ascending start position. -/
def startLE (a b : Highlight) : Prop := a.start ≤ b.start

instance : DecidableRel startLE :=
  fun a b => inferInstanceAs (Decidable (a.start ≤ b.start))

instance : IsTotal Highlight startLE :=
  ⟨fun a b => Nat.le_total a.start b.start⟩

instance : IsTrans Highlight startLE :=
  ⟨fun _ _ _ hab hbc => Nat.le_trans hab hbc⟩

/-- Embedding of highlightTextInParagraph from HighlightedEssay.tsx: filter
the evidence spans as getAllEvidenceSpans does, sort them longest first, build
the highlight intervals with the overlap test, sort the intervals by ascending
start, and render the paragraph as alternating unhighlighted and highlighted
slices. Returns the sorted highlight intervals and the rendered text. -/
def highlightTextInParagraph (spans : List (List Char)) (para : List Char) :
    List Highlight × List Char :=
  let kept := spans.filter keepSpan
  let sortedSpans := List.insertionSort spanLenGE kept
  let hs := List.insertionSort startLE (findHighlights para sortedSpans [])
  (hs, renderFrom para 0 hs)

/-- Two highlight intervals are non-overlapping. -/
def DisjointIv (a b : Highlight) : Prop := a.stop ≤ b.start ∨ b.stop ≤ a.start

/-! ### Chunker (essay_preprocessor.py, spec-modelled) -/

/-- Modelled from the spec: Chunker.make_chunks of essay_preprocessor.py is
missing from the repository sources (only declared in README_pipeline.md).
Per the specification, chunk i contains the paragraph indices from i*step up
to i*step+chunk_max (exclusive) with step = chunk_max - overlap, continuing
until all paragraphs are covered, the last chunk truncated to the remaining
paragraphs. This helper emits the chunks starting at position pos. -/
def makeChunksFrom (chunkMax step n pos : Nat) : List (List Nat) :=
  if h : pos + chunkMax < n ∧ 0 < step then
    List.range' pos chunkMax :: makeChunksFrom chunkMax step n (pos + step)
  else
    [List.range' pos (n - pos)]
termination_by n - pos
decreasing_by omega

/-- Modelled from the spec: Chunker.make_chunks over n paragraphs with the
configured chunk_max_paragraphs and chunk_overlap_paragraphs. -/
def make_chunks (chunkMax overlap n : Nat) : List (List Nat) :=
  if n = 0 then [] else makeChunksFrom chunkMax (chunkMax - overlap) n 0

/-! ### Score aggregation (grading_engine.py, spec-modelled) -/

/-- A per-criterion outcome as consumed by the numeric aggregator: the
criterion's weight, the point value of its judged level, and whether the
criterion was refused. -/
structure CriterionScore where
  weight : ℚ
  points : ℚ
  refused : Bool

/-- Modelled from the spec: compute_weighted_numeric of grading_engine.py is
missing from the repository sources (only declared in
grading_engine_features_guide.md). Per the specification it computes the
weighted average of the level point values using normalized weights, the
weights of refused criteria excluded from the denominator rather than
treated as score zero; none when no weight remains. -/
def compute_weighted_numeric (rs : List CriterionScore) : Option ℚ :=
  let active := rs.filter (fun r => !r.refused)
  let wsum := (active.map (fun r => r.weight)).sum
  if wsum = 0 then none
  else some ((active.map (fun r => r.weight * r.points)).sum / wsum)

/-- A letter-grade band: the inclusive lower threshold and the letter. The
configured bands are listed highest first with strictly descending
thresholds; band i covers the closed-open interval from its own threshold up
to the next higher band's threshold. -/
structure LetterBand where
  lo : ℚ
  letter : String

/-- Modelled from the spec: the letter_bands mapping of grading_engine.py is
missing from the repository sources. Per the specification a numeric value is
mapped through the configured non-overlapping closed-open bands, a value
exactly on a boundary belonging to the higher band: the first band (highest
threshold first) whose inclusive lower threshold is reached wins. -/
def letterFor : List LetterBand → ℚ → Option String
  | [], _ => none
  | b :: rest, v => if b.lo ≤ v then some b.letter else letterFor rest v

/-! ### TextStructurer paragraph splitting (essay_preprocessor.py, spec-modelled) -/

/-- A paragraph of the structured essay with its character offsets into the
original text (field names follow the Paragraph dataclass of
essay_preprocessor.py). -/
structure Para where
  text : List Char
  start_char : Nat
  end_char : Nat

/-- A line is blank when all of its characters are whitespace. -/
def isBlankLine (l : List Char) : Bool := l.all isJsWhitespace

/-- Ordering of scanned lines: an earlier line ends strictly before a later
line starts (they are separated at least by a newline). -/
def lineLT (a b : List Char × Nat) : Prop := a.2 + a.1.length < b.2

/-- Modelled from the spec: first phase of StructureParser.split_paragraphs
of essay_preprocessor.py, which is missing from the repository sources — cut
the text into newline-separated lines, each paired with the character offset
where it starts in the original text. The fuel argument (instantiated with
the text length) bounds the recursion. -/
def linesFromFuel : Nat → List Char → Nat → List (List Char × Nat)
  | 0, _, _ => []
  | fuel + 1, cs, pos =>
    if cs = [] then []
    else
      match cs.dropWhile (fun c => c != '\n') with
      | [] => [(cs.takeWhile (fun c => c != '\n'), pos)]
      | _ :: tail =>
        (cs.takeWhile (fun c => c != '\n'), pos) ::
          linesFromFuel fuel tail (pos + (cs.takeWhile (fun c => c != '\n')).length + 1)

/-- Lines of the original text with their start offsets. -/
def linesFrom (cs : List Char) (pos : Nat) : List (List Char × Nat) :=
  linesFromFuel cs.length cs pos

/-- End offset of a block of lines: the offset of its last line plus that
line's length. -/
def blockEnd : List (List Char × Nat) → Nat
  | [] => 0
  | [p] => p.2 + p.1.length
  | _ :: p :: ps => blockEnd (p :: ps)

/-- Modelled from the spec: second phase of split_paragraphs — group maximal
runs of non-blank lines into paragraphs separated by blank-line boundaries;
each paragraph records the start offset of its first line and the end offset
of its last line into the original text. -/
def groupLinesFuel : Nat → List (List Char × Nat) → List Para
  | 0, _ => []
  | _ + 1, [] => []
  | fuel + 1, (l, off) :: rest =>
    if isBlankLine l then groupLinesFuel fuel rest
    else
      Para.mk
        (List.intercalate ['\n']
          (l :: (rest.takeWhile (fun p => !isBlankLine p.1)).map Prod.fst))
        off
        (blockEnd ((l, off) :: rest.takeWhile (fun p => !isBlankLine p.1))) ::
        groupLinesFuel fuel (rest.dropWhile (fun p => !isBlankLine p.1))

/-- Modelled from the spec: StructureParser.split_paragraphs — split the text
on blank-line boundaries into paragraphs, preserving original character
offsets. -/
def split_paragraphs (text : List Char) : List Para :=
  groupLinesFuel (linesFrom text 0).length (linesFrom text 0)

/-! ### Evidence verbatim enforcement (grading_engine.py, spec-modelled) -/

/-- An evidence span returned by a grading pass: the quoted text and the
paragraph index it points at. -/
structure EvidenceSpan where
  quoted_text : List Char
  paragraph_index : Nat

/-- An evidence span is verbatim when its quoted text is an exact substring
of the essay text supplied to the evaluation. -/
def spanVerbatim (essay : List Char) (s : EvidenceSpan) : Bool :=
  decide (s.quoted_text <:+: essay)

/-- Modelled from the spec: the verbatim-quote enforcement of the grading
engine is missing from the repository sources. Per the specification a pass
whose evidence contains a non-verbatim span is retried once; if the retry
still contains an invalid span, the result keeps only the retry's valid
spans and is marked low confidence. Returns the accepted spans and the
low_confidence flag. -/
def resolveEvidence (essay : List Char) (firstPass retryPass : List EvidenceSpan) :
    List EvidenceSpan × Bool :=
  if firstPass.all (spanVerbatim essay) then (firstPass, false)
  else if retryPass.all (spanVerbatim essay) then (retryPass, false)
  else (retryPass.filter (spanVerbatim essay), true)

/-! ### CriterionEvaluator tie-break (grading_engine.py, spec-modelled) -/

/-- The agreement_flag values of CriterionResult. -/
inductive AgreementFlag
  | ok
  | needs_review
  | tie_break
deriving DecidableEq

/-- The fields of CriterionResult relevant to the consistency protocol. -/
structure CriterionResultCore where
  level : Option String
  agreement_flag : AgreementFlag
  tie_break_used : Bool

/-- The arbitration decision returned by the tie-break pass. -/
inductive TieBreakOutcome
  | pickFirst
  | pickSecond
  | average
  | escalate

/-- Declared midpoint of two levels on the ordinal scale valid_levels. -/
def midLevel (validLevels : List String) (i1 i2 : Fin validLevels.length) : String :=
  validLevels.get ⟨(i1.val + i2.val) / 2, by
    have h1 := i1.isLt
    have h2 := i2.isLt
    omega⟩

/-- Modelled from the spec: the tie-break pass of the CriterionEvaluator
state machine is missing from the repository sources. Per the specification
it either picks one of the two disputed levels, averages them to the
declared midpoint, or escalates as needs_review; it records
tie_break_used = true and sets agreement_flag to the outcome (ok if
resolved, needs_review if unresolved). -/
def tieBreak (validLevels : List String) (i1 i2 : Fin validLevels.length) :
    TieBreakOutcome → CriterionResultCore
  | .pickFirst => ⟨some (validLevels.get i1), .ok, true⟩
  | .pickSecond => ⟨some (validLevels.get i2), .ok, true⟩
  | .average => ⟨some (midLevel validLevels i1 i2), .ok, true⟩
  | .escalate => ⟨some (validLevels.get i1), .needs_review, true⟩

/-- Modelled from the spec: the consistency phase of evaluating one
criterion — when the second pass agrees with the first the result is
accepted with agreement_flag ok and no tie-break; otherwise the tie-break
pass arbitrates. -/
def consistencyPhase (validLevels : List String) (i1 i2 : Fin validLevels.length)
    (outcome : TieBreakOutcome) : CriterionResultCore :=
  if i1 = i2 then ⟨some (validLevels.get i1), .ok, false⟩
  else tieBreak validLevels i1 i2 outcome

/-! ### Rubric parsing (rubric_parser_prompt.py, spec-modelled) -/

/-- A criterion of the canonical rubric schema. -/
structure CanonicalCriterion where
  id : String
  weight : ℚ
  valid_levels : List String
  descriptors : List (String × String)

/-- The canonical rubric produced by the parser. -/
structure CanonicalRubric where
  criteria : List CanonicalCriterion

/-- Modelled from the spec: the semantic validation of RubricParser
(_validate_rubric) is missing from the repository sources. Per the
specification every criterion needs at least two performance levels, its
descriptor keys must be exactly its valid levels, and weights must be
non-negative; each violation contributes an error naming the criterion. -/
def validate_rubric (r : CanonicalRubric) : List String :=
  r.criteria.filterMap fun c =>
    if c.valid_levels.length < 2 then some (c.id ++ ": fewer than two levels")
    else if c.descriptors.map Prod.fst ≠ c.valid_levels then
      some (c.id ++ ": descriptor keys differ from valid_levels")
    else if c.weight < 0 then some (c.id ++ ": negative weight")
    else none

/-- The result of a rubric parse (shape follows the ParseResult dataclass of
rubric_parser_prompt.py). -/
structure ParseResult where
  success : Bool
  rubric : Option CanonicalRubric
  confidence : ℚ
  warnings : List String
  errors : List String

/-- Rubric input: already-structured data or raw text needing LLM-assisted
extraction. -/
inductive RubricSource
  | structured : CanonicalRubric → RubricSource
  | rawText : List Char → RubricSource

/-- Modelled from the spec: parse confidence is a monotone function of how
many soft corrections (warnings) were needed; a clean parse scores 1.0. -/
def confidenceOf (warnings : List String) : ℚ := 1 / (1 + warnings.length)

/-- Modelled from the spec: RubricParser.parse_text is missing from the
repository sources. Per the specification already well-formed structured
input is validated directly without the LLM extraction pass, while raw text
is sent to the inference service (mocked by the extraction argument, which
also reports the soft corrections it needed). The second component counts
LLM extraction calls. -/
def parse_rubric (extract : List Char → Option CanonicalRubric × List String) :
    RubricSource → ParseResult × Nat
  | .structured r =>
    if validate_rubric r = [] then (⟨true, some r, confidenceOf [], [], []⟩, 0)
    else (⟨false, none, 0, [], validate_rubric r⟩, 0)
  | .rawText t =>
    match extract t with
    | (none, ws) => (⟨false, none, 0, ws, ["extraction failed"]⟩, 1)
    | (some r, ws) =>
      if validate_rubric r = [] then (⟨true, some r, confidenceOf ws, ws, []⟩, 1)
      else (⟨false, none, 0, ws, validate_rubric r⟩, 1)

/-- A concrete well-formed rubric used by the witnesses. -/
def sampleRubric : CanonicalRubric :=
  ⟨[⟨"thesis", 1, ["Good", "Poor"], [("Good", "g"), ("Poor", "p")]⟩]⟩

/-! ### Pipeline orchestration (rubriCheck_pipeline.py, spec-modelled) -/

/-- Fatal pipeline errors: input validation and rubric validation. -/
inductive FatalError
  | unsupportedInput
  | rubricParse
deriving DecidableEq

/-- The provider-boundary outcome for one criterion after its bounded
retries: either a structured success at some level or a surviving
ProviderError. -/
inductive ProviderOutcome
  | success : String → ProviderOutcome
  | providerError : ProviderOutcome

/-- Per-criterion entry of the final report. -/
structure PipelineCriterionResult where
  criterion_id : String
  level : Option String
  refused : Bool
  reason : Option String

/-- Modelled from the spec: evaluation of one criterion against its provider
outcome — a surviving ProviderError marks just that criterion refused with
reason "evaluation unavailable". -/
def evalWithProvider (cid : String) : ProviderOutcome → PipelineCriterionResult
  | .success l => ⟨cid, some l, false, none⟩
  | .providerError => ⟨cid, none, true, some "evaluation unavailable"⟩

/-- Modelled from the spec: essay input validation of the TextStructurer —
the essay is rejected when empty or beyond the hard length ceiling. -/
def essayValid (maxLen : Nat) (essay : List Char) : Bool :=
  !essay.isEmpty && decide (essay.length ≤ maxLen)

/-- Modelled from the spec: the PipelineOrchestrator of
rubriCheck_pipeline.py is missing from the repository sources. Per the
specification fatal validation errors abort the whole pipeline before any
inference calls are made, while per-criterion provider failures are
isolated: every criterion is evaluated against its own provider outcome.
The second component counts inference calls made. -/
def run_pipeline (maxLen : Nat) (essay : List Char) (r : CanonicalRubric)
    (provider : Nat → ProviderOutcome) :
    Except FatalError (List PipelineCriterionResult) × Nat :=
  if essayValid maxLen essay = false then
    (Except.error FatalError.unsupportedInput, 0)
  else if validate_rubric r ≠ [] then
    (Except.error FatalError.rubricParse, 0)
  else
    (Except.ok (r.criteria.enum.map fun ic => evalWithProvider ic.2.id (provider ic.1)),
      r.criteria.length)

/-! ### Theorems -/

/-- Arithmetic core of the overlap test: when the candidate is no longer than
the existing highlight, a negative test implies the intervals are disjoint. -/
theorem disjoint_of_not_overlaps {i len : Nat} {e : Highlight}
    (hlen : len ≤ e.stop - e.start)
    (h : overlapsExisting i len e = false) :
    i + len ≤ e.start ∨ e.stop ≤ i := by
  unfold overlapsExisting at h
  simp only [Bool.or_eq_false_iff, Bool.and_eq_false_iff,
    decide_eq_false_iff_not, not_le, not_lt] at h
  omega

/-- A match position within the text leaves room for the whole pattern. -/
theorem matchAt_bound {pat txt : List Char} {i : Nat} (hi : i ≤ txt.length)
    (h : matchAt pat txt i = true) : i + pat.length ≤ txt.length := by
  unfold matchAt at h
  have hp := List.isPrefixOf_iff_prefix.mp h
  have hlen := hp.length_le
  simp only [List.length_drop] at hlen
  omega

/-- Every recorded occurrence leaves room for the whole pattern. -/
theorem occurrences_bound {pat txt : List Char} {i : Nat}
    (h : i ∈ occurrences pat txt) : i + pat.length ≤ txt.length := by
  have hmem := List.mem_filter.mp h
  have hi : i ≤ txt.length := by
    have := List.mem_range.mp hmem.1
    omega
  exact matchAt_bound hi hmem.2

/-- Adding one span preserves boundedness, nonemptiness, the minimum length
bound and pairwise disjointness of the accumulated highlights. -/
theorem addSpanHighlights_invariant {L len : Nat} (hpos : 0 < len)
    (occs : List Nat) :
    ∀ hs : List Highlight, (∀ i ∈ occs, i + len ≤ L) →
      (∀ h ∈ hs, h.start < h.stop ∧ h.stop ≤ L ∧ len ≤ h.stop - h.start) →
      hs.Pairwise DisjointIv →
      (∀ h ∈ addSpanHighlights len occs hs,
          h.start < h.stop ∧ h.stop ≤ L ∧ len ≤ h.stop - h.start) ∧
        (addSpanHighlights len occs hs).Pairwise DisjointIv := by
  induction occs with
  | nil => intro hs _ hb hd; exact ⟨hb, hd⟩
  | cons i rest ih =>
    intro hs hocc hb hd
    rw [addSpanHighlights]
    by_cases hcase : hs.any (overlapsExisting i len) = true
    · rw [if_pos hcase]
      exact ih hs (fun j hj => hocc j (List.mem_cons_of_mem _ hj)) hb hd
    · rw [if_neg hcase]
      have hnew : ∀ h ∈ hs ++ [Highlight.mk i (i + len)],
          h.start < h.stop ∧ h.stop ≤ L ∧ len ≤ h.stop - h.start := by
        intro h hh
        rcases List.mem_append.mp hh with hmem | hmem
        · exact hb h hmem
        · rcases List.mem_singleton.mp hmem with rfl
          refine ⟨?_, ?_, ?_⟩
          · show i < i + len
            omega
          · show i + len ≤ L
            exact hocc i (List.mem_cons_self _ _)
          · show len ≤ i + len - i
            omega
      have hdis : (hs ++ [Highlight.mk i (i + len)]).Pairwise DisjointIv := by
        rw [List.pairwise_append]
        refine ⟨hd, List.pairwise_singleton _ _, ?_⟩
        intro a ha b hbmem
        rcases List.mem_singleton.mp hbmem with rfl
        have hno : overlapsExisting i len a = false := by
          by_contra hcon
          exact hcase (List.any_eq_true.mpr ⟨a, ha, by
            cases hov : overlapsExisting i len a
            · exact absurd hov hcon
            · rfl⟩)
        have := disjoint_of_not_overlaps (hb a ha).2.2 hno
        exact this.symm
      exact ih _ (fun j hj => hocc j (List.mem_cons_of_mem _ hj)) hnew hdis

/-- Processing the spans longest first keeps the accumulated highlights
bounded, nonempty and pairwise disjoint. -/
theorem findHighlights_invariant {para : List Char} :
    ∀ (ss : List (List Char)) (hs : List Highlight),
      (∀ s ∈ ss, 0 < s.length) →
      ss.Pairwise spanLenGE →
      (∀ h ∈ hs, h.start < h.stop ∧ h.stop ≤ para.length) →
      hs.Pairwise DisjointIv →
      (∀ h ∈ hs, ∀ s ∈ ss, s.length ≤ h.stop - h.start) →
      (∀ h ∈ findHighlights para ss hs, h.start < h.stop ∧ h.stop ≤ para.length) ∧
        (findHighlights para ss hs).Pairwise DisjointIv := by
  intro ss
  induction ss with
  | nil => intro hs _ _ hb hd _; exact ⟨hb, hd⟩
  | cons s rest ih =>
    intro hs hpos hsorted hb hd hmin
    rw [findHighlights]
    have hspos : 0 < s.length := hpos s (List.mem_cons_self _ _)
    have hoccb : ∀ i ∈ occurrences (lowerStr s) (lowerStr para),
        i + s.length ≤ para.length := by
      intro i hi
      have := occurrences_bound hi
      simpa [lowerStr] using this
    have hb0 : ∀ h ∈ hs, h.start < h.stop ∧ h.stop ≤ para.length ∧
        s.length ≤ h.stop - h.start := by
      intro h hh
      exact ⟨(hb h hh).1, (hb h hh).2, hmin h hh s (List.mem_cons_self _ _)⟩
    obtain ⟨hb1, hd1⟩ :=
      addSpanHighlights_invariant hspos
        (occurrences (lowerStr s) (lowerStr para)) hs hoccb hb0 hd
    have hrest : ∀ s2 ∈ rest, s2.length ≤ s.length :=
      fun s2 hs2 => List.rel_of_pairwise_cons hsorted hs2
    refine ih _ (fun s2 h2 => hpos s2 (List.mem_cons_of_mem _ h2))
      (List.Pairwise.of_cons hsorted)
      (fun h hh => ⟨(hb1 h hh).1, (hb1 h hh).2.1⟩) hd1 ?_
    intro h hh s2 hs2
    exact Nat.le_trans (hrest s2 hs2) (hb1 h hh).2.2

/-- Concatenating a slice with the remaining drop reassembles the tail. -/
theorem jsSlice_append_drop (s : List Char) {a b : Nat} (hab : a ≤ b) :
    jsSlice s a b ++ s.drop b = s.drop a := by
  unfold jsSlice
  have h1 : s.drop b = (s.drop a).drop (b - a) := by
    rw [List.drop_drop]
    congr 1
    omega
  rw [h1, List.take_append_drop]

/-- Rendering sorted, disjoint, nonempty highlights starting at or after last
reproduces the paragraph tail from last on. -/
theorem renderFrom_eq (para : List Char) :
    ∀ (hs : List Highlight) (last : Nat),
      hs.Pairwise DisjointIv →
      hs.Pairwise startLE →
      (∀ h ∈ hs, h.start < h.stop) →
      (∀ h ∈ hs, last ≤ h.start) →
      renderFrom para last hs = para.drop last := by
  intro hs
  induction hs with
  | nil => intro last _ _ _ _; rfl
  | cons h rest ih =>
    intro last hdis hsorted hne hlast
    have hh1 : h.start < h.stop := hne h (List.mem_cons_self _ _)
    have hchain : ∀ h2 ∈ rest, h.stop ≤ h2.start := by
      intro h2 h2m
      have hd2 : DisjointIv h h2 := List.rel_of_pairwise_cons hdis h2m
      have hs2 : h.start ≤ h2.start := List.rel_of_pairwise_cons hsorted h2m
      have hn2 : h2.start < h2.stop := hne h2 (List.mem_cons_of_mem _ h2m)
      rcases hd2 with hle | hle
      · exact hle
      · omega
    have hihres : renderFrom para h.stop rest = para.drop h.stop :=
      ih h.stop (List.Pairwise.of_cons hdis) (List.Pairwise.of_cons hsorted)
        (fun h2 h2m => hne h2 (List.mem_cons_of_mem _ h2m)) hchain
    rw [renderFrom, hihres,
      jsSlice_append_drop para (Nat.le_of_lt hh1)]
    by_cases hlt : last < h.start
    · rw [if_pos hlt, jsSlice_append_drop para (Nat.le_of_lt hlt)]
    · have : last = h.start :=
        Nat.le_antisymm (hlast h (List.mem_cons_self _ _)) (Nat.le_of_not_lt hlt)
      rw [if_neg hlt, this, List.nil_append]

/-- C9: for every paragraph string and every list of evidence spans, the
highlight intervals that highlightTextInParagraph constructs are pairwise
non-overlapping, and the rendered output — the concatenation of the
unhighlighted and highlighted slices in ascending start order — reproduces
every character of the paragraph exactly once. -/
theorem c9_highlights_disjoint_and_render_exact
    (spans : List (List Char)) (para : List Char) :
    (highlightTextInParagraph spans para).1.Pairwise DisjointIv ∧
      (highlightTextInParagraph spans para).2 = para := by
  unfold highlightTextInParagraph
  have hkpos : ∀ s ∈ spans.filter keepSpan, 0 < s.length := by
    intro s hsmem
    have hk : keepSpan s = true := (List.mem_filter.mp hsmem).2
    obtain ⟨c, hc, _⟩ := List.any_eq_true.mp hk
    exact List.length_pos.mpr (List.ne_nil_of_mem hc)
  have hspos : ∀ s ∈ List.insertionSort spanLenGE (spans.filter keepSpan),
      0 < s.length := by
    intro s hsmem
    exact hkpos s ((List.mem_insertionSort _).mp hsmem)
  have hssorted :
      (List.insertionSort spanLenGE (spans.filter keepSpan)).Pairwise spanLenGE :=
    List.sorted_insertionSort spanLenGE (spans.filter keepSpan)
  obtain ⟨hb, hd⟩ := findHighlights_invariant
    (List.insertionSort spanLenGE (spans.filter keepSpan)) [] hspos hssorted
    (by intro h hh; cases hh) List.Pairwise.nil (by intro h hh; cases hh)
  have hperm := List.perm_insertionSort startLE
    (findHighlights para (List.insertionSort spanLenGE (spans.filter keepSpan)) [])
  have hd2 : (List.insertionSort startLE
      (findHighlights para (List.insertionSort spanLenGE (spans.filter keepSpan)) [])).Pairwise
      DisjointIv := (hperm.pairwise_iff (fun hx => hx.symm)).mpr hd
  have hsort2 : (List.insertionSort startLE
      (findHighlights para (List.insertionSort spanLenGE (spans.filter keepSpan)) [])).Pairwise
      startLE :=
    List.sorted_insertionSort startLE _
  have hb2 : ∀ h ∈ List.insertionSort startLE
      (findHighlights para (List.insertionSort spanLenGE (spans.filter keepSpan)) []),
      h.start < h.stop := by
    intro h hh
    exact (hb h ((List.mem_insertionSort _).mp hh)).1
  refine ⟨hd2, ?_⟩
  have := renderFrom_eq para
    (List.insertionSort startLE
      (findHighlights para (List.insertionSort spanLenGE (spans.filter keepSpan)) []))
    0 hd2 hsort2 hb2 (fun h _ => Nat.zero_le _)
  simpa using this

/-- C10: the frontend normalizes a numeric overall score n to a 0-100 display
value by showing n unchanged when n is greater than 1 and multiplying by 100
otherwise; in particular n = 1 is displayed as 100.0 while any n strictly
between 1 and 2 is displayed as that fraction-like value itself, and a missing
numeric score becomes 0 in StudentResults. -/
theorem c10_overall_score_display (n : ℚ) (h1 : 1 < n) (h2 : n < 2) :
    normalizeOverallScore (some 1) = 100 ∧
    normalizeOverallScore (some n) = n ∧
    normalizeOverallScore none = 0 := by
  refine ⟨?_, ?_, rfl⟩
  · simp [normalizeOverallScore]
  · simp [normalizeOverallScore, h1]

/-- Witness for C10 at the concrete score 3/2. -/
theorem c10_overall_score_display_witness :
    normalizeOverallScore (some 1) = 100 ∧
    normalizeOverallScore (some (3/2)) = 3/2 ∧
    normalizeOverallScore none = 0 :=
  c10_overall_score_display (3/2) (by norm_num) (by norm_num)

/-- Shape of the chunks emitted from position pos: the chunk at index i is
the window of chunkMax paragraph indices starting at pos + i*step, truncated
at n. -/
theorem makeChunksFrom_shape (chunkMax step n : Nat) (hstep : 0 < step)
    (hsc : step ≤ chunkMax) :
    ∀ (k pos : Nat), n ≤ pos + k → pos < n →
      ∀ i : Nat, i < (makeChunksFrom chunkMax step n pos).length →
        (makeChunksFrom chunkMax step n pos)[i]? =
          some (List.range' (pos + i * step)
            (min chunkMax (n - (pos + i * step)))) := by
  intro k
  induction k with
  | zero => intro pos hk hpos; omega
  | succ k ih =>
    intro pos hk hpos i hi
    rw [makeChunksFrom] at hi ⊢
    by_cases h : pos + chunkMax < n ∧ 0 < step
    · rw [dif_pos h] at hi ⊢
      cases i with
      | zero =>
        simp only [List.getElem?_cons_zero, Nat.zero_mul, Nat.add_zero]
        rw [Nat.min_eq_left (by omega)]
      | succ j =>
        simp only [List.getElem?_cons_succ]
        have hj : j < (makeChunksFrom chunkMax step n (pos + step)).length := by
          simp only [List.length_cons] at hi
          omega
        have harith : pos + step + j * step = pos + (j + 1) * step := by ring
        have := ih (pos + step) (by omega) (by omega) j hj
        rw [this, harith]
    · rw [dif_neg h] at hi ⊢
      cases i with
      | zero =>
        simp only [List.getElem?_cons_zero, Nat.zero_mul, Nat.add_zero]
        rw [Nat.min_eq_right (by omega)]
      | succ j =>
        simp only [List.length_cons, List.length_nil] at hi
        omega

/-- Every paragraph index at or after pos lands in some emitted chunk. -/
theorem makeChunksFrom_cover (chunkMax step n : Nat) (hstep : 0 < step)
    (hsc : step ≤ chunkMax) :
    ∀ (k pos : Nat), n ≤ pos + k →
      ∀ j, pos ≤ j → j < n → ∃ c ∈ makeChunksFrom chunkMax step n pos, j ∈ c := by
  intro k
  induction k with
  | zero => intro pos hk j h1 h2; omega
  | succ k ih =>
    intro pos hk j h1 h2
    rw [makeChunksFrom]
    by_cases h : pos + chunkMax < n ∧ 0 < step
    · rw [dif_pos h]
      by_cases hj : j < pos + chunkMax
      · exact ⟨List.range' pos chunkMax, List.mem_cons_self _ _,
          List.mem_range'_1.mpr ⟨h1, hj⟩⟩
      · obtain ⟨c, hc, hjc⟩ := ih (pos + step) (by omega) j (by omega) h2
        exact ⟨c, List.mem_cons_of_mem _ hc, hjc⟩
    · rw [dif_neg h]
      exact ⟨List.range' pos (n - pos), List.mem_singleton_self _,
        List.mem_range'_1.mpr ⟨h1, by omega⟩⟩

/-- C1: for every essay and every chunk configuration with overlap below
chunk_max, chunk i of make_chunks contains the paragraph indices from i*step
up to i*step+chunk_max (exclusive) with step = chunk_max - overlap, the last
chunk truncated to the remaining paragraphs, and every paragraph index
appears in at least one chunk (the union of the chunks covers all
paragraphs). -/
theorem c1_chunker_shape_and_cover (chunkMax overlap n : Nat)
    (hov : overlap < chunkMax) :
    (∀ i : Nat, i < (make_chunks chunkMax overlap n).length →
        (make_chunks chunkMax overlap n)[i]? =
          some (List.range' (i * (chunkMax - overlap))
            (min chunkMax (n - i * (chunkMax - overlap))))) ∧
    ∀ j < n, ∃ c ∈ make_chunks chunkMax overlap n, j ∈ c := by
  constructor
  · intro i hi
    unfold make_chunks at hi ⊢
    by_cases hn : n = 0
    · rw [if_pos hn] at hi
      simp at hi
    · rw [if_neg hn] at hi ⊢
      have := makeChunksFrom_shape chunkMax (chunkMax - overlap) n (by omega)
        (by omega) n 0 (by omega) (by omega) i hi
      simpa using this
  · intro j hj
    unfold make_chunks
    have hn : ¬n = 0 := by omega
    rw [if_neg hn]
    have := makeChunksFrom_cover chunkMax (chunkMax - overlap) n (by omega)
      (by omega) n 0 (by omega) j (by omega) hj
    exact this

/-- Witness for C1 with chunk_max 2, overlap 1 and a 3-paragraph essay. -/
theorem c1_chunker_witness :
    1 < 2 ∧ ∃ c ∈ make_chunks 2 1 3, 2 ∈ c :=
  ⟨by decide, (c1_chunker_shape_and_cover 2 1 3 (by decide)).2 2 (by decide)⟩

/-- C2: the aggregator computes numeric_score as the weighted average over
non-refused criteria only, the weights of refused criteria excluded from the
denominator (not treated as score zero); in particular, for a rubric with
two equally weighted criteria where one is refused, numeric_score equals the
point value of the other criterion's level alone. -/
theorem c2_weighted_average_excludes_refused
    (rs : List CriterionScore) (w p1 p2 : ℚ) (hw : 0 < w) :
    compute_weighted_numeric rs =
      compute_weighted_numeric (rs.filter (fun r => !r.refused)) ∧
    compute_weighted_numeric
      [CriterionScore.mk w p1 true, CriterionScore.mk w p2 false] = some p2 := by
  constructor
  · simp [compute_weighted_numeric, List.filter_filter]
  · have hwne : w ≠ 0 := ne_of_gt hw
    simp only [compute_weighted_numeric, List.filter_cons, List.filter_nil]
    norm_num [hwne]

/-- Witness for C2: weight 1, refused criterion at 50 points, the other at
75 points; the score is 75, not deflated by the refusal. -/
theorem c2_weighted_average_witness :
    compute_weighted_numeric
      [CriterionScore.mk 1 50 true, CriterionScore.mk 1 75 false] = some 75 :=
  (c2_weighted_average_excludes_refused [] 1 50 75 (by norm_num)).2

/-- Helper for C5: letterFor skips every band whose threshold lies strictly
above the value. -/
theorem letterFor_append_skip (pre rest : List LetterBand) (v : ℚ)
    (hpre : ∀ a ∈ pre, v < a.lo) :
    letterFor (pre ++ rest) v = letterFor rest v := by
  induction pre with
  | nil => rfl
  | cons a pre ih =>
    rw [List.cons_append, letterFor,
      if_neg (not_le.mpr (hpre a (List.mem_cons_self _ _)))]
    exact ih (fun b hb => hpre b (List.mem_cons_of_mem _ hb))

/-- C5: with strictly descending band thresholds, the bands act as
non-overlapping closed-open intervals: every value at or above a band's
threshold and strictly below all higher bands' thresholds maps to that
band's letter, and a value exactly on a band boundary maps to the higher
band's letter. -/
theorem c5_letter_bands_closed_open (pre post : List LetterBand)
    (b : LetterBand) (v : ℚ)
    (hsorted : (pre ++ b :: post).Pairwise (fun x y => y.lo < x.lo))
    (hb : b.lo ≤ v) (hup : ∀ a ∈ pre, v < a.lo) :
    letterFor (pre ++ b :: post) v = some b.letter ∧
    letterFor (pre ++ b :: post) b.lo = some b.letter := by
  constructor
  · rw [letterFor_append_skip pre _ v hup, letterFor, if_pos hb]
  · have hpre2 : ∀ a ∈ pre, b.lo < a.lo := by
      intro a ha
      exact (List.pairwise_append.mp hsorted).2.2 a ha b (List.mem_cons_self _ _)
    rw [letterFor_append_skip pre _ b.lo hpre2, letterFor, if_pos le_rfl]

/-- Witness for C5 with bands A from 90 and B from 80: the value 85 maps to
B, and the boundary value 80 maps to B (the higher of the two bands meeting
there). -/
theorem c5_letter_bands_witness :
    letterFor [LetterBand.mk 90 "A", LetterBand.mk 80 "B"] 85 = some "B" ∧
    letterFor [LetterBand.mk 90 "A", LetterBand.mk 80 "B"] 80 = some "B" := by
  have h := c5_letter_bands_closed_open [LetterBand.mk 90 "A"] []
    (LetterBand.mk 80 "B") 85
    (by
      refine List.Pairwise.cons ?_ (List.pairwise_singleton _ _)
      intro y hy
      rcases List.mem_singleton.mp hy with rfl
      norm_num)
    (by norm_num)
    (by
      intro a ha
      rcases List.mem_singleton.mp ha with rfl
      norm_num)
  simpa using h

/-- A span passes the verbatim check exactly when its quoted text is an
infix of the essay. -/
theorem spanVerbatim_iff {essay : List Char} {s : EvidenceSpan} :
    spanVerbatim essay s = true ↔ s.quoted_text <:+: essay := by
  simp [spanVerbatim]

/-- C3: every evidence span accepted for a non-refused result is an exact
verbatim substring of the essay text supplied to that evaluation; a valid
first pass is accepted as is, a non-verbatim span causes exactly one retry
of the pass, and if the retry is still invalid the result is marked
low_confidence and the offending spans are dropped rather than kept. -/
theorem c3_evidence_spans_verbatim (essay : List Char)
    (fp rp : List EvidenceSpan) :
    (∀ s ∈ (resolveEvidence essay fp rp).1, s.quoted_text <:+: essay) ∧
    (fp.all (spanVerbatim essay) = true →
      resolveEvidence essay fp rp = (fp, false)) ∧
    (fp.all (spanVerbatim essay) = false → rp.all (spanVerbatim essay) = true →
      resolveEvidence essay fp rp = (rp, false)) ∧
    (fp.all (spanVerbatim essay) = false → rp.all (spanVerbatim essay) = false →
      (resolveEvidence essay fp rp).2 = true ∧
        ∀ s ∈ rp, spanVerbatim essay s = false →
          s ∉ (resolveEvidence essay fp rp).1) := by
  refine ⟨?_, ?_, ?_, ?_⟩
  · intro s hs
    unfold resolveEvidence at hs
    by_cases h1 : fp.all (spanVerbatim essay) = true
    · rw [if_pos h1] at hs
      exact spanVerbatim_iff.mp (List.all_eq_true.mp h1 s hs)
    · rw [if_neg h1] at hs
      by_cases h2 : rp.all (spanVerbatim essay) = true
      · rw [if_pos h2] at hs
        exact spanVerbatim_iff.mp (List.all_eq_true.mp h2 s hs)
      · rw [if_neg h2] at hs
        exact spanVerbatim_iff.mp (List.mem_filter.mp hs).2
  · intro h1
    unfold resolveEvidence
    rw [if_pos h1]
  · intro h1 h2
    unfold resolveEvidence
    rw [if_neg (by simp [h1]), if_pos h2]
  · intro h1 h2
    unfold resolveEvidence
    rw [if_neg (by simp [h1]), if_neg (by simp [h2])]
    refine ⟨rfl, ?_⟩
    intro s _ hbad hmem
    have := (List.mem_filter.mp hmem).2
    rw [this] at hbad
    exact Bool.true_eq_false.mp hbad

/-- Witness for C3: essay "ab", first pass quoting "z" (not verbatim), retry
quoting "a" (verbatim) and "q" (not verbatim): the result is low confidence
and the invalid span is dropped. -/
theorem c3_evidence_spans_witness :
    (resolveEvidence ['a', 'b'] [EvidenceSpan.mk ['z'] 0]
        [EvidenceSpan.mk ['a'] 0, EvidenceSpan.mk ['q'] 0]).2 = true ∧
    ∀ s ∈ [EvidenceSpan.mk ['a'] 0, EvidenceSpan.mk ['q'] 0],
      spanVerbatim ['a', 'b'] s = false →
      s ∉ (resolveEvidence ['a', 'b'] [EvidenceSpan.mk ['z'] 0]
        [EvidenceSpan.mk ['a'] 0, EvidenceSpan.mk ['q'] 0]).1 :=
  (c3_evidence_spans_verbatim ['a', 'b'] [EvidenceSpan.mk ['z'] 0]
    [EvidenceSpan.mk ['a'] 0, EvidenceSpan.mk ['q'] 0]).2.2.2
    (by decide) (by decide)

/-- C4: when the first-pass and second-pass levels disagree, the tie-break
pass sets tie_break_used = true and agreement_flag to ok if resolved or
needs_review if unresolved, and the final level is one of the two disputed
levels or their declared midpoint — never a level outside valid_levels;
moreover in every result of the consistency phase, agreement_flag =
tie_break implies tie_break_used = true. -/
theorem c4_tie_break_protocol (validLevels : List String)
    (i1 i2 : Fin validLevels.length) (outcome : TieBreakOutcome)
    (hne : i1 ≠ i2) :
    ((consistencyPhase validLevels i1 i2 outcome).tie_break_used = true ∧
      ((consistencyPhase validLevels i1 i2 outcome).agreement_flag =
          AgreementFlag.ok ∨
        (consistencyPhase validLevels i1 i2 outcome).agreement_flag =
          AgreementFlag.needs_review) ∧
      ((consistencyPhase validLevels i1 i2 outcome).level =
          some (validLevels.get i1) ∨
        (consistencyPhase validLevels i1 i2 outcome).level =
          some (validLevels.get i2) ∨
        (consistencyPhase validLevels i1 i2 outcome).level =
          some (midLevel validLevels i1 i2)) ∧
      ∀ l, (consistencyPhase validLevels i1 i2 outcome).level = some l →
        l ∈ validLevels) ∧
    ∀ (j1 j2 : Fin validLevels.length) (o : TieBreakOutcome),
      (consistencyPhase validLevels j1 j2 o).agreement_flag =
          AgreementFlag.tie_break →
      (consistencyPhase validLevels j1 j2 o).tie_break_used = true := by
  constructor
  · unfold consistencyPhase
    rw [if_neg hne]
    cases outcome with
    | pickFirst =>
      refine ⟨rfl, Or.inl rfl, Or.inl rfl, ?_⟩
      intro l hl
      have : validLevels.get i1 = l := by
        simpa [tieBreak] using hl
      rw [← this]
      exact validLevels.get_mem i1.1 i1.2
    | pickSecond =>
      refine ⟨rfl, Or.inl rfl, Or.inr (Or.inl rfl), ?_⟩
      intro l hl
      have : validLevels.get i2 = l := by
        simpa [tieBreak] using hl
      rw [← this]
      exact validLevels.get_mem i2.1 i2.2
    | average =>
      refine ⟨rfl, Or.inl rfl, Or.inr (Or.inr rfl), ?_⟩
      intro l hl
      have : midLevel validLevels i1 i2 = l := by
        simpa [tieBreak] using hl
      rw [← this]
      exact validLevels.get_mem _ _
    | escalate =>
      refine ⟨rfl, Or.inr rfl, Or.inl rfl, ?_⟩
      intro l hl
      have : validLevels.get i1 = l := by
        simpa [tieBreak] using hl
      rw [← this]
      exact validLevels.get_mem i1.1 i1.2
  · intro j1 j2 o h
    unfold consistencyPhase at h
    by_cases hj : j1 = j2
    · rw [if_pos hj] at h
      simp at h
    · rw [if_neg hj] at h
      cases o <;> simp [tieBreak] at h

/-- Witness for C4 on the 4-level scale with first pass Good and second pass
Fair, the tie-break averaging to the declared midpoint. -/
theorem c4_tie_break_witness :
    (consistencyPhase ["Excellent", "Good", "Fair", "Poor"]
        ⟨1, by norm_num⟩ ⟨2, by norm_num⟩
        TieBreakOutcome.average).tie_break_used = true ∧
    ∀ l, (consistencyPhase ["Excellent", "Good", "Fair", "Poor"]
        ⟨1, by norm_num⟩ ⟨2, by norm_num⟩
        TieBreakOutcome.average).level = some l →
      l ∈ ["Excellent", "Good", "Fair", "Poor"] :=
  ⟨(c4_tie_break_protocol ["Excellent", "Good", "Fair", "Poor"]
      ⟨1, by norm_num⟩ ⟨2, by norm_num⟩ TieBreakOutcome.average
      (by decide)).1.1,
    (c4_tie_break_protocol ["Excellent", "Good", "Fair", "Poor"]
      ⟨1, by norm_num⟩ ⟨2, by norm_num⟩ TieBreakOutcome.average
      (by decide)).1.2.2.2⟩

/-- C7: a rubric input that is already in canonical form is validated
directly — without any LLM extraction call — and parse_rubric returns the
same rubric with confidence 1.0 and an empty warnings list. -/
theorem c7_parse_rubric_roundtrip
    (extract : List Char → Option CanonicalRubric × List String)
    (r : CanonicalRubric) (hvalid : validate_rubric r = []) :
    parse_rubric extract (RubricSource.structured r) =
      (ParseResult.mk true (some r) 1 [] [], 0) := by
  simp only [parse_rubric, hvalid, if_pos]
  norm_num [confidenceOf]

/-- Witness for C7 on a concrete two-level, one-criterion rubric. -/
theorem c7_parse_rubric_witness :
    parse_rubric (fun _ => (none, [])) (RubricSource.structured sampleRubric) =
      (ParseResult.mk true (some sampleRubric) 1 [] [], 0) :=
  c7_parse_rubric_roundtrip _ sampleRubric (by decide)

/-- C8: fatal validation errors abort the whole pipeline before any
inference calls are made (zero calls are counted), while a ProviderError
that survives its retries affects only the criterion it occurred in: every
criterion is evaluated against its own provider outcome, and a failed
criterion appears in the report as refused with reason
"evaluation unavailable" instead of aborting the run. -/
theorem c8_error_propagation (maxLen : Nat) (essay : List Char)
    (r : CanonicalRubric) (provider : Nat → ProviderOutcome) :
    (essayValid maxLen essay = false →
      run_pipeline maxLen essay r provider =
        (Except.error FatalError.unsupportedInput, 0)) ∧
    (essayValid maxLen essay = true → validate_rubric r ≠ [] →
      run_pipeline maxLen essay r provider =
        (Except.error FatalError.rubricParse, 0)) ∧
    (essayValid maxLen essay = true → validate_rubric r = [] →
      ∃ results, run_pipeline maxLen essay r provider =
          (Except.ok results, r.criteria.length) ∧
        results.length = r.criteria.length ∧
        ∀ i (hi : i < r.criteria.length),
          results[i]? =
            some (evalWithProvider (r.criteria.get ⟨i, hi⟩).id (provider i)) ∧
          (provider i = ProviderOutcome.providerError →
            results[i]? = some (PipelineCriterionResult.mk
              (r.criteria.get ⟨i, hi⟩).id none true
              (some "evaluation unavailable")))) := by
  refine ⟨?_, ?_, ?_⟩
  · intro h
    rw [run_pipeline, if_pos h]
  · intro h1 h2
    rw [run_pipeline, if_neg (by simp [h1]), if_pos h2]
  · intro h1 h2
    refine ⟨r.criteria.enum.map fun ic => evalWithProvider ic.2.id (provider ic.1),
      ?_, ?_, ?_⟩
    · rw [run_pipeline, if_neg (by simp [h1]), if_neg (by simp [h2])]
    · simp
    · intro i hi
      have hbase : (r.criteria.enum.map
          fun ic => evalWithProvider ic.2.id (provider ic.1))[i]? =
          some (evalWithProvider (r.criteria.get ⟨i, hi⟩).id (provider i)) := by
        rw [List.getElem?_map, List.getElem?_enum, List.getElem?_eq_getElem hi]
        rfl
      refine ⟨hbase, ?_⟩
      intro hp
      rw [hbase, hp]
      rfl

/-- Witness for C8: a one-criterion rubric whose provider fails — the run
still completes and the criterion is reported refused with reason
"evaluation unavailable". -/
theorem c8_error_propagation_witness :
    ∃ results,
      run_pipeline 100 ['a'] sampleRubric (fun _ => ProviderOutcome.providerError) =
        (Except.ok results, sampleRubric.criteria.length) ∧
      results.length = sampleRubric.criteria.length ∧
      ∀ i (hi : i < sampleRubric.criteria.length),
        results[i]? = some (evalWithProvider (sampleRubric.criteria.get ⟨i, hi⟩).id
          ((fun _ => ProviderOutcome.providerError) i)) ∧
        ((fun _ => ProviderOutcome.providerError) i = ProviderOutcome.providerError →
          results[i]? = some (PipelineCriterionResult.mk
            (sampleRubric.criteria.get ⟨i, hi⟩).id none true
            (some "evaluation unavailable"))) :=
  (c8_error_propagation 100 ['a'] sampleRubric
    (fun _ => ProviderOutcome.providerError)).2.2 (by decide) (by decide)

/-- Offsets and ordering of the scanned lines: every line starts at or after
pos, ends within the scanned text, and the lines are strictly ordered by
offsets. -/
theorem linesFromFuel_facts :
    ∀ (fuel : Nat) (cs : List Char) (pos : Nat), cs.length ≤ fuel →
      (∀ p ∈ linesFromFuel fuel cs pos,
          pos ≤ p.2 ∧ p.2 + p.1.length ≤ pos + cs.length) ∧
      (linesFromFuel fuel cs pos).Pairwise lineLT := by
  intro fuel
  induction fuel with
  | zero =>
    intro cs pos _
    exact ⟨fun p hp => absurd hp (by simp [linesFromFuel]), by simp [linesFromFuel]⟩
  | succ fuel ih =>
    intro cs pos hk
    by_cases hcs : cs = []
    · subst hcs
      constructor
      · intro p hp
        simp [linesFromFuel] at hp
      · simp [linesFromFuel]
    · have hsplit : (cs.takeWhile (fun c => c != '\n')).length +
          (cs.dropWhile (fun c => c != '\n')).length = cs.length := by
        rw [← List.length_append, List.takeWhile_append_dropWhile]
      cases hdw : cs.dropWhile (fun c => c != '\n') with
      | nil =>
        have heq : linesFromFuel (fuel + 1) cs pos =
            [(cs.takeWhile (fun c => c != '\n'), pos)] := by
          simp only [linesFromFuel]
          rw [if_neg hcs, hdw]
        rw [heq]
        constructor
        · intro p hp
          rcases List.mem_singleton.mp hp with rfl
          refine ⟨le_refl _, ?_⟩
          have hlen : (cs.takeWhile (fun c => c != '\n')).length ≤ cs.length :=
            (List.takeWhile_sublist _).length_le
          show pos + (cs.takeWhile (fun c => c != '\n')).length ≤ pos + cs.length
          omega
        · exact List.pairwise_singleton _ _
      | cons a tail =>
        have heq : linesFromFuel (fuel + 1) cs pos =
            (cs.takeWhile (fun c => c != '\n'), pos) ::
              linesFromFuel fuel tail
                (pos + (cs.takeWhile (fun c => c != '\n')).length + 1) := by
          simp only [linesFromFuel]
          rw [if_neg hcs, hdw]
        rw [hdw] at hsplit
        simp only [List.length_cons] at hsplit
        have htail : tail.length ≤ fuel := by omega
        obtain ⟨ihb, ihp⟩ :=
          ih tail (pos + (cs.takeWhile (fun c => c != '\n')).length + 1) htail
        rw [heq]
        constructor
        · intro p hp
          rcases List.mem_cons.mp hp with rfl | hmem
          · refine ⟨le_refl _, ?_⟩
            show pos + (cs.takeWhile (fun c => c != '\n')).length ≤ pos + cs.length
            omega
          · obtain ⟨h1, h2⟩ := ihb p hmem
            exact ⟨by omega, by omega⟩
        · refine List.Pairwise.cons ?_ ihp
          intro q hq
          have hq1 := (ihb q hq).1
          show pos + (cs.takeWhile (fun c => c != '\n')).length < q.2
          omega

/-- Non-blank lines are nonempty. -/
theorem length_pos_of_not_blank {l : List Char} (h : isBlankLine l = false) :
    0 < l.length := by
  cases l with
  | nil => simp [isBlankLine] at h
  | cons a l => simp

/-- blockEnd is realized by a member of the block. -/
theorem blockEnd_mem : ∀ (b : List (List Char × Nat)), b ≠ [] →
    ∃ p ∈ b, blockEnd b = p.2 + p.1.length
  | [], h => absurd rfl h
  | [p], _ => ⟨p, List.mem_singleton_self p, rfl⟩
  | a :: p :: ps, _ => by
    obtain ⟨q, hq, he⟩ := blockEnd_mem (p :: ps) (by simp)
    refine ⟨q, List.mem_cons_of_mem a hq, ?_⟩
    simp only [blockEnd]
    exact he

/-- Grouping strictly ordered lines into paragraphs yields paragraphs whose
offset windows are ordered and nonempty, with endpoints realized by lines. -/
theorem groupLinesFuel_good :
    ∀ (fuel : Nat) (ls : List (List Char × Nat)), ls.length ≤ fuel →
      ls.Pairwise lineLT →
      ((groupLinesFuel fuel ls).Pairwise
          (fun p q => p.end_char ≤ q.start_char) ∧
       (∀ p ∈ groupLinesFuel fuel ls, p.start_char < p.end_char) ∧
       (∀ p ∈ groupLinesFuel fuel ls, ∃ x ∈ ls, x.2 = p.start_char) ∧
       (∀ p ∈ groupLinesFuel fuel ls, ∃ x ∈ ls, x.2 + x.1.length = p.end_char)) := by
  intro fuel
  induction fuel with
  | zero =>
    intro ls _ _
    refine ⟨by simp [groupLinesFuel], ?_, ?_, ?_⟩ <;>
      intro p hp <;> simp [groupLinesFuel] at hp
  | succ fuel ih =>
    intro ls hk hpair
    cases ls with
    | nil =>
      refine ⟨by simp [groupLinesFuel], ?_, ?_, ?_⟩ <;>
        intro p hp <;> simp [groupLinesFuel] at hp
    | cons hd rest =>
      obtain ⟨l, off⟩ := hd
      simp only [List.length_cons] at hk
      by_cases hbl : isBlankLine l = true
      · have heq : groupLinesFuel (fuel + 1) ((l, off) :: rest) =
            groupLinesFuel fuel rest := by
          simp only [groupLinesFuel]
          rw [if_pos hbl]
        rw [heq]
        obtain ⟨g1, g2, g3, g4⟩ :=
          ih rest (by omega) (List.Pairwise.of_cons hpair)
        refine ⟨g1, g2, ?_, ?_⟩
        · intro p hp
          obtain ⟨x, hx, he⟩ := g3 p hp
          exact ⟨x, List.mem_cons_of_mem _ hx, he⟩
        · intro p hp
          obtain ⟨x, hx, he⟩ := g4 p hp
          exact ⟨x, List.mem_cons_of_mem _ hx, he⟩
      · have hbl2 : isBlankLine l = false := by
          cases hb2 : isBlankLine l
          · rfl
          · exact absurd hb2 hbl
        have heq : groupLinesFuel (fuel + 1) ((l, off) :: rest) =
            Para.mk
              (List.intercalate ['\n']
                (l :: (rest.takeWhile (fun p => !isBlankLine p.1)).map Prod.fst))
              off
              (blockEnd ((l, off) :: rest.takeWhile (fun p => !isBlankLine p.1))) ::
            groupLinesFuel fuel (rest.dropWhile (fun p => !isBlankLine p.1)) := by
          simp only [groupLinesFuel]
          rw [if_neg hbl]
        rw [heq]
        have hrest : rest = rest.takeWhile (fun p => !isBlankLine p.1) ++
            rest.dropWhile (fun p => !isBlankLine p.1) :=
          (List.takeWhile_append_dropWhile _ _).symm
        have hpr : rest.Pairwise lineLT := List.Pairwise.of_cons hpair
        have hsplitp : (rest.takeWhile (fun p => !isBlankLine p.1) ++
            rest.dropWhile (fun p => !isBlankLine p.1)).Pairwise lineLT := by
          rw [← hrest]
          exact hpr
        obtain ⟨ptk, pdr, pcross⟩ := List.pairwise_append.mp hsplitp
        have hmemtk : ∀ x ∈ rest.takeWhile (fun p => !isBlankLine p.1),
            x ∈ rest := by
          intro x hx
          rw [hrest]
          exact List.mem_append_left _ hx
        have hmemdr : ∀ y ∈ rest.dropWhile (fun p => !isBlankLine p.1),
            y ∈ rest := by
          intro y hy
          rw [hrest]
          exact List.mem_append_right _ hy
        have hhd : ∀ y ∈ rest, off + l.length < y.2 := by
          intro y hy
          have := List.rel_of_pairwise_cons hpair hy
          unfold lineLT at this
          simpa using this
        obtain ⟨bp, hbp, hbe⟩ := blockEnd_mem
          ((l, off) :: rest.takeWhile (fun p => !isBlankLine p.1)) (by simp)
        have hbp_cases : bp = (l, off) ∨
            bp ∈ rest.takeWhile (fun p => !isBlankLine p.1) :=
          List.mem_cons.mp hbp
        have hlpos : 0 < l.length := length_pos_of_not_blank hbl2
        have hse : off <
            blockEnd ((l, off) :: rest.takeWhile (fun p => !isBlankLine p.1)) := by
          rw [hbe]
          rcases hbp_cases with rfl | hmem
          · show off < off + l.length
            omega
          · have := hhd bp (hmemtk bp hmem)
            omega
        have hdrlen : (rest.dropWhile (fun p => !isBlankLine p.1)).length ≤ fuel := by
          have h1 : (rest.dropWhile (fun p => !isBlankLine p.1)).length ≤
              rest.length := (List.dropWhile_sublist _).length_le
          omega
        obtain ⟨g1, g2, g3, g4⟩ :=
          ih (rest.dropWhile (fun p => !isBlankLine p.1)) hdrlen pdr
        have hendle : ∀ y ∈ rest.dropWhile (fun p => !isBlankLine p.1),
            blockEnd ((l, off) :: rest.takeWhile (fun p => !isBlankLine p.1)) ≤
              y.2 := by
          intro y hy
          rw [hbe]
          rcases hbp_cases with rfl | hmem
          · exact Nat.le_of_lt (hhd y (hmemdr y hy))
          · exact Nat.le_of_lt (pcross bp hmem y hy)
        refine ⟨?_, ?_, ?_, ?_⟩
        · refine List.Pairwise.cons ?_ g1
          intro q hq
          obtain ⟨y, hy, hys⟩ := g3 q hq
          show blockEnd ((l, off) :: rest.takeWhile (fun p => !isBlankLine p.1)) ≤
            q.start_char
          rw [← hys]
          exact hendle y hy
        · intro p hp
          rcases List.mem_cons.mp hp with rfl | hmem
          · exact hse
          · exact g2 p hmem
        · intro p hp
          rcases List.mem_cons.mp hp with rfl | hmem
          · exact ⟨(l, off), List.mem_cons_self _ _, rfl⟩
          · obtain ⟨x, hx, he⟩ := g3 p hmem
            exact ⟨x, List.mem_cons_of_mem _ (hmemdr x hx), he⟩
        · intro p hp
          rcases List.mem_cons.mp hp with rfl | hmem
          · refine ⟨bp, ?_, hbe.symm⟩
            rcases hbp_cases with rfl | hm
            · exact List.mem_cons_self _ _
            · exact List.mem_cons_of_mem _ (hmemtk bp hm)
          · obtain ⟨x, hx, he⟩ := g4 p hmem
            exact ⟨x, List.mem_cons_of_mem _ (hmemdr x hx), he⟩

/-- C6: in every StructuredEssay produced by the splitter, the paragraphs'
(start_char, end_char) ranges are pairwise non-overlapping (an earlier
paragraph ends at or before a later one starts), the offsets are strictly
increasing in paragraph order (each window is nonempty), and every offset is
a character position into the original text. -/
theorem c6_paragraph_offsets (text : List Char) :
    ((split_paragraphs text).Pairwise fun p q => p.end_char ≤ q.start_char) ∧
    (∀ p ∈ split_paragraphs text, p.start_char < p.end_char) ∧
    (∀ p ∈ split_paragraphs text, p.end_char ≤ text.length) := by
  obtain ⟨lb, lp⟩ := linesFromFuel_facts text.length text 0 (le_refl _)
  obtain ⟨g1, g2, g3, g4⟩ :=
    groupLinesFuel_good (linesFrom text 0).length (linesFrom text 0)
      (le_refl _) lp
  refine ⟨g1, g2, ?_⟩
  intro p hp
  obtain ⟨x, hx, he⟩ := g4 p hp
  have hb := (lb x hx).2
  omega

/-- Witness for C6 on the concrete text "ab\n\ncd". -/
theorem c6_paragraph_offsets_witness :
    (split_paragraphs ('a' :: 'b' :: '\n' :: '\n' :: 'c' :: 'd' :: [])).Pairwise
      (fun p q => p.end_char ≤ q.start_char) :=
  (c6_paragraph_offsets ('a' :: 'b' :: '\n' :: '\n' :: 'c' :: 'd' :: [])).1

/-- Witness for C9 on the concrete paragraph "abc" with the span "b". -/
theorem c9_highlights_witness :
    (highlightTextInParagraph [['b']] ['a', 'b', 'c']).2 = ['a', 'b', 'c'] :=
  (c9_highlights_disjoint_and_render_exact [['b']] ['a', 'b', 'c']).2

end RubriCheck
